import Mathlib

/-!
# Verification of the MPC node engine (Aukciszek backend)

Shallow embedding of the node-side protocol engine of an `n`-party MPC
service: the field kernel in `api/utils/utils.py` and the request handlers
of the routers (`redistribution.py`, `comparison.py`, `xor.py`,
`reconstruction.py`, `shares.py`) operating on the process-wide `state`
dictionary of `api/config.py`.

Python dynamic values stored in the `state["shares"]` dictionary and in
`state["random_number_bit_shares"]` are modelled with the `PyVal` type;
handlers are modelled as functions from the node state and the request
payload to `Except PyErr` of the successor state (plus dispatched peer
messages where the handler fans out). Randomness drawn from
`secure_randint` is passed in as explicit arguments. Machine integers are
Lean `Int`/`Nat`; Python `%` on a positive modulus coincides with
`Int.emod` / `Nat.mod`.
-/

set_option maxRecDepth 4000

/-- Dynamic values held in the `shares` dictionary and in
`random_number_bit_shares`: Python `None`, `int`, 2-tuples, the `n`-slot
arrays (lists of `None`-or-`int`), and the `client_shares` list of
`(client_id, share)` tuples. -/
inductive PyVal where
  | none : PyVal
  | int (n : Int) : PyVal
  | tup (a b : PyVal) : PyVal
  | arr (xs : List (Option Int)) : PyVal
  | clients (xs : List (Int × Int)) : PyVal
deriving Repr, DecidableEq

/-- Error outcomes of a handler: an `HTTPException` with its detail string,
or an uncaught Python exception (`TypeError` / `IndexError` /
`ValueError`), which FastAPI surfaces as an internal server error. -/
inductive PyErr where
  | http (detail : String) : PyErr
  | typeError : PyErr
  | indexError : PyErr
  | valueError : PyErr
deriving Repr, DecidableEq

/-- Lookup in a string-keyed Python dictionary (association list). -/
def dictLookup (d : List (String × PyVal)) (k : String) : Option PyVal :=
  (d.find? (fun kv => kv.1 = k)).map (fun kv => kv.2)

/-- The `d.get(k, None)`: missing keys read as `None`. -/
def dictGet (d : List (String × PyVal)) (k : String) : PyVal :=
  (dictLookup d k).getD PyVal.none

/-- The `d[k] = v`: overwrite in place, or append a fresh key. -/
def dictSet (d : List (String × PyVal)) (k : String) (v : PyVal) :
    List (String × PyVal) :=
  if d.any (fun kv => kv.1 = k) then
    d.map (fun kv => if kv.1 = k then (k, v) else kv)
  else d ++ [(k, v)]

/-- Python `len` on the dynamic values it is applied to by the handlers;
`none` on values where `len` raises `TypeError`. -/
def pyLen : PyVal → Option Nat
  | PyVal.arr xs => some xs.length
  | PyVal.clients xs => some xs.length
  | PyVal.tup _ _ => some 2
  | _ => Option.none

/-- Python list indexing `xs[i]` with negative-index wrap-around;
`none` models `IndexError`. -/
def pyIndex {α : Type} (xs : List α) (i : Int) : Option α :=
  let j : Int := if i < 0 then (xs.length : Int) + i else i
  if 0 ≤ j then xs.get? j.toNat else Option.none

/-- Python list item assignment `xs[i] = v`; `none` models `IndexError`. -/
def pySet {α : Type} (xs : List α) (i : Int) (v : α) : Option (List α) :=
  let j : Int := if i < 0 then (xs.length : Int) + i else i
  if 0 ≤ j ∧ j < (xs.length : Int) then some (xs.set j.toNat v)
  else Option.none

/-- Python `int + x` on a dynamic right operand: defined only when the
right operand is an `int`; every other case (`int + None`,
`int + tuple`, `int + list`) raises `TypeError` in Python. -/
def pyAddInt (a : Int) : PyVal → Option Int
  | PyVal.int b => some (a + b)
  | _ => Option.none

/-- One hexadecimal digit (both cases), as accepted by `int(s, 16)`. -/
def hexDigit (c : Char) : Option Nat :=
  if '0' ≤ c ∧ c ≤ '9' then some (c.toNat - '0'.toNat)
  else if 'a' ≤ c ∧ c ≤ 'f' then some (c.toNat - 'a'.toNat + 10)
  else if 'A' ≤ c ∧ c ≤ 'F' then some (c.toNat - 'A'.toNat + 10)
  else Option.none

/-- The `int(s, 16)` on the well-formed inputs the protocol exchanges
(optional `0x`/`0X`, then hex digits); `none` models `ValueError`. -/
def hexToNat (s : String) : Option Nat :=
  let cs := s.data
  let cs := if cs.take 2 = ['0', 'x'] ∨ cs.take 2 = ['0', 'X'] then cs.drop 2 else cs
  if cs = [] then Option.none
  else cs.foldl (fun acc c =>
    match acc, hexDigit c with
    | some a, some d => some (a * 16 + d)
    | _, _ => Option.none) (some 0)

/-! ## Field kernel (`api/utils/utils.py`) -/

/-- The `binary_internal`: little-endian bits of a positive integer. -/
def binary_internal (n : Nat) : List Nat :=
  if h : n = 0 then [] else (n % 2) :: binary_internal (n / 2)
termination_by n
decreasing_by exact Nat.div_lt_self (Nat.pos_of_ne_zero h) one_lt_two

/-- The `binary(n)`: little-endian bit list, `[0]` for `n = 0`. -/
def binary (n : Nat) : List Nat :=
  if n = 0 then [0] else binary_internal n

/-- The `while k:` loop of `binary_exponentiation`: square-and-multiply,
reducing mod `n` at each step. The loop state is `(k, b, a)`; since `k`
strictly decreases (`k >>= 1`), running the loop with `fuel ≥ k`
iterations available computes its exact result, and the caller passes
`fuel := k`. -/
def binExpLoop : Nat → Nat → Int → Int → Int → Int
  | 0, _, _, a, _ => a
  | fuel + 1, k, b, a, n =>
    if k = 0 then a
    else binExpLoop fuel (k / 2) ((b * b) % n) (if k % 2 = 1 then (a * b) % n else a) n

/-- The `binary_exponentiation(b, k, n)`: `b^k mod n`; a negative `k` is
replaced by `n - 2` (Fermat inverse for prime `n`). -/
def binary_exponentiation (b k n : Int) : Int :=
  binExpLoop (if k < 0 then n - 2 else k).toNat (if k < 0 then n - 2 else k).toNat b 1 n

/-- The `modular_multiplicative_inverse(b, n)`: extended Euclid. -/
def modInvLoop (A B U V : Int) (fuel : Nat) : Int × Int :=
  match fuel with
  | 0 => (A, U)
  | fuel + 1 =>
    if B = 0 then (A, U)
    else modInvLoop B (A - (A / B) * B) V (U - (A / B) * V) fuel

/-- The `f(x, coefficients, p, t)`: `(Σ_{i<t} coefficients[i]·x^i) mod p`. -/
def f (x : Nat) (coefficients : List Nat) (p t : Nat) : Nat :=
  (((List.range t).map (fun i => coefficients.getD i 0 * x ^ i)).sum) % p

/-- The coefficient list built by `Shamir`: `t` sampled values
(`rand`, drawn from `[0, p)`), index 0 overwritten with `k0`; if the
last entry is then `0` it is replaced by `resample` (drawn from
`[1, p-1]`). -/
def shamirCoefficients (t k0 : Nat) (rand : List Nat) (resample : Nat) :
    List Nat :=
  let c := (rand.take t).set 0 k0
  if c.getLastD 0 = 0 then c.set (t - 1) resample else c

/-- The `Shamir(t, n, k0, p)` with the random draws made explicit:
`rand` are the `t` coefficient samples, `resample` the replacement for a
zero leading coefficient. Returns `[(1, f(1)), …, (n, f(n))]`. -/
def Shamir (t n k0 p : Nat) (rand : List Nat) (resample : Nat) :
    List (Nat × Nat) :=
  let coefficients := shamirCoefficients t k0 rand resample
  (List.range n).map (fun i => (i + 1, f (i + 1) coefficients p t))

/-- The `computate_coefficients(shares, p)`: for each index `i`,
`L_i = Π_{j≠i} x_j · binary_exponentiation(x_j - x_i, -1, p) mod p`,
accumulated exactly as the double loop does (`li *= …; li %= p`). -/
def computate_coefficients (shares : List (Int × Int)) (p : Int) : List Int :=
  (List.range shares.length).map (fun i =>
    (List.range shares.length).foldl (fun li j =>
      if i ≠ j then
        (li * ((shares.getD j (0, 0)).1 *
          binary_exponentiation ((shares.getD j (0, 0)).1 - (shares.getD i (0, 0)).1) (-1) p)) % p
      else li) 1)

/-- The `reconstruct_secret(shares, coefficients, p)`:
`secret += y_i * coefficients[i]; secret %= p` over all shares. -/
def reconstruct_secret (shares : List (Int × Int)) (coefficients : List Int)
    (p : Int) : Int :=
  (List.range shares.length).foldl (fun secret i =>
    (secret + (shares.getD i (0, 0)).2 * coefficients.getD i 0) % p) 0

/-! ## Node state (`api/config.py`) -/

/-- The process-wide `state` dictionary. `id` is rendered `idv` (the field
keeps Python's `state["id"]`). Parameters start as `None`
(`Option.none`); `shares` is the inner string-keyed dictionary. -/
structure NodeState where
  t : Option Int
  n : Option Int
  idv : Option Int
  p : Option Int
  parties : Option (List String)
  multiplicative_share : Option Int
  additive_share : Option Int
  xor_share : Option Int
  shares : List (String × PyVal)
  A : Option (List (List Int))
  random_number_bit_shares : List PyVal
  random_number_share : Option Int
  comparison_a : Option Int
  z_table : List PyVal
  Z_table : List PyVal
  comparison_a_bits : List Nat
deriving Repr, DecidableEq

/-- Whether `state[key] is None` for the scalar top-level keys the
validators inspect. -/
def stateKeyIsNone (st : NodeState) (key : String) : Bool :=
  if key = "t" then st.t.isNone
  else if key = "n" then st.n.isNone
  else if key = "id" then st.idv.isNone
  else if key = "p" then st.p.isNone
  else if key = "parties" then st.parties.isNone
  else if key = "A" then st.A.isNone
  else if key = "multiplicative_share" then st.multiplicative_share.isNone
  else if key = "additive_share" then st.additive_share.isNone
  else if key = "xor_share" then st.xor_share.isNone
  else if key = "random_number_share" then st.random_number_share.isNone
  else true

/-- The `validate_initialized(required_keys)`: first `None` key raises. -/
def validate_initialized (st : NodeState) : List String → Except PyErr Unit
  | [] => Except.ok ()
  | k :: ks =>
    if stateKeyIsNone st k then Except.error (PyErr.http (k ++ " is not initialized."))
    else validate_initialized st ks

/-- The `validate_initialized_shares(required_keys)`: each key must be present
in `state["shares"]` and not `None`. -/
def validate_initialized_shares (st : NodeState) : List String → Except PyErr Unit
  | [] => Except.ok ()
  | k :: ks =>
    match dictLookup st.shares k with
    | Option.none => Except.error (PyErr.http ("['shares'] does not contain " ++ k ++ "."))
    | some v =>
      if v = PyVal.none then
        Except.error (PyErr.http ("['shares']" ++ k ++ " is not initialized."))
      else validate_initialized_shares st ks

/-- The `isinstance(x, list)` on a dynamic value (arrays and the
`client_shares` list are Python lists, tuples and ints are not). -/
def pyIsList : PyVal → Bool
  | PyVal.arr _ => true
  | PyVal.clients _ => true
  | _ => false

/-- All entries of a slot array are non-`None` (tuples in
`client_shares` are never `None`). -/
def pyArrFull : PyVal → Bool
  | PyVal.arr xs => xs.all (fun x => x.isSome)
  | _ => true

/-- The `validate_initialized_shares_array(required_keys)`: present, non-`None`,
a list, and with every slot filled. -/
def validate_initialized_shares_array (st : NodeState) :
    List String → Except PyErr Unit
  | [] => Except.ok ()
  | k :: ks =>
    match dictLookup st.shares k with
    | Option.none => Except.error (PyErr.http ("['shares'] does not contain " ++ k ++ "."))
    | some v =>
      if v = PyVal.none then
        Except.error (PyErr.http ("['shares']" ++ k ++ " is not initialized."))
      else if !pyIsList v then
        Except.error (PyErr.http ("The element at ['shares']" ++ k ++ " is not a list."))
      else if !pyArrFull v then
        Except.error (PyErr.http ("A slot of ['shares']" ++ k ++ " is not initialized."))
      else validate_initialized_shares_array st ks


/-- Sequencing of a validation step: an error aborts the handler. -/
def andThen {α : Type} (v : Except PyErr Unit) (rest : Except PyErr α) :
    Except PyErr α :=
  match v with
  | Except.error e => Except.error e
  | Except.ok _ => rest

/-! ## Redistribution handlers (`api/routers/redistribution.py`) -/

/-- The `None`-or-int read of a top-level register, as Python stores it. -/
def optIntToPy : Option Int → PyVal
  | Option.none => PyVal.none
  | some n => PyVal.int n

/-- The `set_received_q`: the `/receive-q-from-parties` handler. `trusted` is
the transport's trusted-peer verdict; `party_id` and the hex payload are
the request body. On any error the state is unchanged (the handler's only
write is the final slot assignment). -/
def set_received_q (st : NodeState) (trusted : Bool) (party_id : Int)
    (shared_q : String) : Except PyErr NodeState :=
  if !trusted then
    Except.error (PyErr.http "You do not have permission to access this resource.")
  else
  andThen (validate_initialized_shares st ["shared_q"]) <|
  match pyLen (dictGet st.shares "shared_q") with
  | Option.none => Except.error PyErr.typeError
  | some len =>
    if party_id > (len : Int) ∨ party_id < 1 then
      Except.error (PyErr.http "Invalid party id.")
    else
      match dictGet st.shares "shared_q" with
      | PyVal.arr xs =>
        match pyIndex xs (party_id - 1) with
        | Option.none => Except.error PyErr.indexError
        | some slot =>
          if slot.isSome then
            Except.error (PyErr.http "q is already set from this party.")
          else
            match hexToNat shared_q with
            | Option.none => Except.error PyErr.valueError
            | some v =>
              match pySet xs (party_id - 1) (some ((v : Int))) with
              | Option.none => Except.error PyErr.indexError
              | some xs' =>
                Except.ok { st with shares := dictSet st.shares "shared_q" (PyVal.arr xs') }
      | PyVal.clients _ =>
        -- indexing a `client_shares`-shaped list yields a tuple, which is
        -- not `None`, so the duplicate guard fires
        Except.error (PyErr.http "q is already set from this party.")
      | _ => Except.error PyErr.typeError

/-- The `receive_u_from_parties`: the `/receive-u-from-parties` handler. Unlike
`set_received_q` / `set_received_r`, the source has no
`is not None` duplicate-slot guard before the assignment. -/
def receive_u_from_parties (st : NodeState) (trusted : Bool) (party_id : Int)
    (shared_u : String) : Except PyErr NodeState :=
  if !trusted then
    Except.error (PyErr.http "You do not have permission to access this resource.")
  else
  andThen (validate_initialized_shares st ["shared_u"]) <|
  match pyLen (dictGet st.shares "shared_u") with
  | Option.none => Except.error PyErr.typeError
  | some len =>
    if party_id > (len : Int) ∨ party_id < 1 then
      Except.error (PyErr.http "Invalid party id.")
    else
      match dictGet st.shares "shared_u" with
      | PyVal.arr xs =>
        match hexToNat shared_u with
        | Option.none => Except.error PyErr.valueError
        | some v =>
          match pySet xs (party_id - 1) (some ((v : Int))) with
          | Option.none => Except.error PyErr.indexError
          | some xs' =>
            Except.ok { st with shares := dictSet st.shares "shared_u" (PyVal.arr xs') }
      | _ => Except.error PyErr.typeError

/-- The `sum(qs)` over a fully-populated slot array (validated beforehand, so
every entry is `some`). -/
def sumArr (xs : List (Option Int)) : Int :=
  (xs.map (fun x => x.getD 0)).sum

/-- The per-peer values of `redistribute_r`:
`r[i] = multiplied_shares * A[id-1][i] % p` for `i in range(n)`; an
out-of-range access is an `IndexError`. -/
def rValues (A : List (List Int)) (idv m p : Int) :
    List Nat → Except PyErr (List Int)
  | [] => Except.ok []
  | i :: rest =>
    match pyIndex A (idv - 1) with
    | Option.none => Except.error PyErr.indexError
    | some row =>
      match pyIndex row (i : Int) with
      | Option.none => Except.error PyErr.indexError
      | some aij =>
        match rValues A idv m p rest with
        | Except.error e => Except.error e
        | Except.ok vs => Except.ok (((m * aij) % p) :: vs)

/-- The dispatch loop of `redistribute_r` over `i in range(n)`: the slot
`i = id - 1` is written into `shares["shared_r"]`, every other `i` is
dispatched to `parties[i]` as the message `(i, r[i])`. -/
def rDistributeLoop (parties : List String) (idv : Int) (r : List Int)
    (shares : List (String × PyVal)) (msgs : List (Nat × Int)) :
    List Nat → Except PyErr (List (String × PyVal) × List (Nat × Int))
  | [] => Except.ok (shares, msgs)
  | i :: rest =>
    if (i : Int) = idv - 1 then
      match dictGet shares "shared_r" with
      | PyVal.arr xs =>
        match pySet xs (i : Int) (some (r.getD i 0)) with
        | some xs' =>
          rDistributeLoop parties idv r (dictSet shares "shared_r" (PyVal.arr xs')) msgs rest
        | Option.none => Except.error PyErr.indexError
      | _ => Except.error PyErr.typeError
    else
      match pyIndex parties (i : Int) with
      | some _ => rDistributeLoop parties idv r shares (msgs ++ [(i, r.getD i 0)]) rest
      | Option.none => Except.error PyErr.indexError

/-- The `redistribute_r`: the `/redistribute-r` handler. Returns the successor
state together with the list of dispatched peer messages
`(peer index, r value)`. -/
def redistribute_r (st : NodeState) (isAdmin : Bool)
    (first_share_name second_share_name : String) :
    Except PyErr (NodeState × List (Nat × Int)) :=
  if !isAdmin then
    Except.error (PyErr.http "You do not have permission to access this resource.")
  else
  andThen (validate_initialized st ["n", "p", "t", "id", "parties", "A"]) <|
  andThen (validate_initialized_shares st ["shared_r"]) <|
  andThen (validate_initialized_shares_array st ["shared_q"]) <|
  let first := dictGet st.shares first_share_name
  let second := dictGet st.shares second_share_name
  if first = PyVal.none ∨ second = PyVal.none then
    Except.error (PyErr.http "Invalid share names provided.")
  else
    match first, second, dictGet st.shares "shared_q" with
    | PyVal.int firstI, PyVal.int secondI, PyVal.arr qs =>
      let p := st.p.getD 0
      let n := (st.n.getD 0).toNat
      let idv := st.idv.getD 0
      let multiplied_shares := (firstI * secondI + sumArr qs) % p
      (match rValues (st.A.getD []) idv multiplied_shares p (List.range n) with
      | Except.error e => Except.error e
      | Except.ok r =>
        match rDistributeLoop (st.parties.getD []) idv r st.shares [] (List.range n) with
        | Except.error e => Except.error e
        | Except.ok (shares', msgs) => Except.ok ({ st with shares := shares' }, msgs))
    | _, _, _ => Except.error PyErr.typeError

/-! ## Comparison handlers (`api/routers/comparison.py`) -/

/-- The `next((y for x, y in client_shares if x == cid), None)`. -/
def findClientShare (xs : List (Int × Int)) (cid : Int) : Option Int :=
  (xs.find? (fun xy => xy.1 = cid)).map (fun xy => xy.2)

/-- The `calculate_a_comparison`: the `/calculate-a-comparison` handler. The
stored value is the plain integer
`2^(l+k+1) - random_number_share + 2^l + first - second`
(note: the source applies no `% p`). -/
def calculate_a_comparison (st : NodeState) (isAdmin : Bool)
    (first_client_id second_client_id : Int) (l k : Nat) :
    Except PyErr NodeState :=
  if !isAdmin then
    Except.error (PyErr.http "You do not have permission to access this resource.")
  else
  andThen (validate_initialized st ["random_number_share"]) <|
  andThen (validate_initialized_shares st ["client_shares"]) <|
  match pyLen (dictGet st.shares "client_shares") with
  | Option.none => Except.error PyErr.typeError
  | some len =>
    if len < 2 then
      Except.error (PyErr.http "At least two client shares must be configured.")
    else if first_client_id = second_client_id then
      Except.error (PyErr.http "Client IDs must be different.")
    else
      match dictGet st.shares "client_shares" with
      | PyVal.clients xs =>
        match findClientShare xs first_client_id, findClientShare xs second_client_id with
        | some firstI, some secondI =>
          let a : Int := 2 ^ (l + k + 1) - st.random_number_share.getD 0
            + 2 ^ l + firstI - secondI
          Except.ok { st with shares := dictSet st.shares "comparison_a" (PyVal.int a) }
        | _, _ => Except.error (PyErr.http "Shares not set for one or both clients.")
      | _ => Except.error PyErr.typeError

/-- The `while len(a_bin) < target: a_bin.append(0)` padding. -/
def padBits (bits : List Nat) (target : Nat) : List Nat :=
  bits ++ List.replicate (target - bits.length) 0

/-- The `prepare_z_tables`: the `/prepare-z-tables` handler. Pads the bits of
the opened `a` to length `l + k`, then copies bit `i` into both tables
for `i = l-1 .. 0` (each such index is within the padded list, whose
length is at least `l + k`). -/
def prepare_z_tables (st : NodeState) (isAdmin : Bool) (l k : Nat)
    (opened_a : String) : Except PyErr NodeState :=
  if !isAdmin then
    Except.error (PyErr.http "You do not have permission to access this resource.")
  else
  match hexToNat opened_a with
  | Option.none => Except.error PyErr.valueError
  | some a =>
    let a_bin := padBits (binary a) (l + k)
    let zt := (List.range l).map (fun i => PyVal.int ((a_bin.getD i 0 : Nat) : Int))
    Except.ok { st with comparison_a_bits := a_bin, z_table := zt, Z_table := zt }

/-- The `calculate_additive_share_of_z_table_arguments`: the
`/calculate-additive-share-of-z-table/{index}` handler. The right operand
of the `+` is whatever `random_number_bit_shares[index]` holds. -/
def calculate_additive_share_of_z_table (st : NodeState) (isAdmin : Bool)
    (index : Int) : Except PyErr NodeState :=
  if !isAdmin then
    Except.error (PyErr.http "You do not have permission to access this resource.")
  else
  andThen (validate_initialized st ["p"]) <|
  if index < 0 ∨ index ≥ (st.comparison_a_bits.length : Int) then
    Except.error (PyErr.http "Index out of bounds for comparison_a_bits.")
  else if index ≥ (st.random_number_bit_shares.length : Int) then
    Except.error (PyErr.http "Index out of bounds for random_number_bit_shares.")
  else
    match pyAddInt ((st.comparison_a_bits.getD index.toNat 0 : Nat) : Int)
        (st.random_number_bit_shares.getD index.toNat PyVal.none) with
    | Option.none => Except.error PyErr.typeError
    | some s => Except.ok { st with additive_share := some (s % st.p.getD 0) }

/-! ## Random-bit handler (`api/routers/xor.py`) -/

/-- The `set_random_number_bit_share_to_temporary_random_bit_share`: the
`/set-temporary-random-bit-share/{bit_index}` handler. Grows the list
with `None` up to `bit_index + 1`, then stores the tuple
`(id, shares["temporary_random_bit"])`. -/
def set_temporary_random_bit_share (st : NodeState) (isAdmin : Bool)
    (bit_index : Nat) : Except PyErr NodeState :=
  if !isAdmin then
    Except.error (PyErr.http "You do not have permission to access this resource.")
  else
  andThen (validate_initialized st ["id"]) <|
  andThen (validate_initialized_shares st ["temporary_random_bit"]) <|
  let rnbs := st.random_number_bit_shares
  let rnbs := rnbs ++ List.replicate (bit_index + 1 - rnbs.length) PyVal.none
  match pySet rnbs (bit_index : Int)
      (PyVal.tup (optIntToPy st.idv) (dictGet st.shares "temporary_random_bit")) with
  | Option.none => Except.error PyErr.indexError
  | some rnbs' => Except.ok { st with random_number_bit_shares := rnbs' }

/-! ## Reconstruction handler (`api/routers/reconstruction.py`) -/

/-- ASCII lower-casing, as `str.lower` acts on the share names in play. -/
def lowerChar (c : Char) : Char :=
  if 'A' ≤ c ∧ c ≤ 'Z' then Char.ofNat (c.toNat + 32) else c

/-- The `s.lower()` (ASCII fragment). -/
def pyLower (s : String) : String := String.mk (s.data.map lowerChar)

/-- ASCII whitespace for `str.strip`. -/
def isSpaceChar (c : Char) : Bool :=
  c = ' ' ∨ c = '\t' ∨ c = '\n' ∨ c = '\r'

/-- The `s.strip()` (ASCII fragment). -/
def pyStrip (s : String) : String :=
  String.mk (((s.data.dropWhile isSpaceChar).reverse.dropWhile isSpaceChar).reverse)

/-- The raw-input share names `get_share_to_reconstruct` refuses. -/
def forbidden_keys : List String :=
  ["client_shares", "shared_r", "shared_q", "shared_u"]

/-- The `get_share_to_reconstruct`: the
`/return-share-to-reconstruct/{share_to_reconstruct}` handler. Filters
the forbidden keys out of the shares dictionary, then requires the
normalised request name to be a key of the filtered dictionary. On
success returns `(id, share value)` (the source renders the value as a
hex string). -/
def get_share_to_reconstruct (st : NodeState) (trusted : Bool)
    (share_to_reconstruct : String) : Except PyErr (Int × Int) :=
  if !trusted then
    Except.error (PyErr.http "You do not have permission to access this resource.")
  else
  let shares := st.shares.filter (fun kv => !(forbidden_keys.contains (pyLower kv.1)))
  if !(shares.any (fun kv => kv.1 = pyLower (pyStrip share_to_reconstruct))) then
    Except.error (PyErr.http "You do not have permission to access this resource.")
  else
  andThen (validate_initialized st ["id"]) <|
  andThen (validate_initialized_shares st [share_to_reconstruct]) <|
  match (dictLookup shares share_to_reconstruct).getD (PyVal.int 0) with
  | PyVal.int v => Except.ok (st.idv.getD 0, v)
  | _ => Except.error PyErr.typeError

/-! ## Share handler (`api/routers/shares.py`) -/

/-- The `set_shares`: the `/set-shares` handler. Parses the hex payload and
writes it under the caller-chosen name, with no further checks. -/
def set_shares (st : NodeState) (isAdmin : Bool)
    (share_name share_value : String) : Except PyErr NodeState :=
  if !isAdmin then
    Except.error (PyErr.http "You do not have permission to access this resource.")
  else
    match hexToNat share_value with
    | Option.none => Except.error PyErr.valueError
    | some v =>
      Except.ok { st with shares := dictSet st.shares share_name (PyVal.int ((v : Int))) }

/-- The freshly-booted `state` of `api/config.py`. -/
def initialState : NodeState where
  t := Option.none
  n := Option.none
  idv := Option.none
  p := Option.none
  parties := Option.none
  multiplicative_share := Option.none
  additive_share := Option.none
  xor_share := Option.none
  shares := [("client_shares", PyVal.none), ("shared_r", PyVal.none),
    ("shared_q", PyVal.none), ("shared_u", PyVal.none)]
  A := Option.none
  random_number_bit_shares := []
  random_number_share := Option.none
  comparison_a := Option.none
  z_table := []
  Z_table := []
  comparison_a_bits := []

/-- A node with `shared_q = [None, None, 3]` (sender 3 already
delivered). -/
def qWitState : NodeState :=
  { initialState with shares := dictSet initialState.shares "shared_q" (PyVal.arr [Option.none, Option.none, some 3]) }

/-- A node whose `shared_u` buffer already holds sender 2's value `5`. -/
def uDupState : NodeState :=
  { initialState with shares := dictSet initialState.shares "shared_u" (PyVal.arr [Option.none, some 5, Option.none]) }

/-- A node ready for the z-table additive step: `p` and `id` set, the
opened bits `[1, 0]` prepared, and `temporary_random_bit = 1` staged. -/
def zAddState : NodeState :=
  { initialState with idv := some 2, p := some 13, comparison_a_bits := [1, 0], shares := dictSet initialState.shares "temporary_random_bit" (PyVal.int 1) }

/-- The `zAddState` after `set-temporary-random-bit-share/0`: slot 0 of
`random_number_bit_shares` holds the tuple `(2, 1)`. -/
def zAddState' : NodeState :=
  { zAddState with random_number_bit_shares := [PyVal.tup (PyVal.int 2) (PyVal.int 1)] }

/-- A node with `p = 23`, masking share `r = 22`, and client shares
`x = 0` (client 1) and `y = 22` (client 2). -/
def aCmpState : NodeState :=
  { initialState with p := some 23, random_number_share := some 22, shares := dictSet initialState.shares "client_shares" (PyVal.clients [(1, 0), (2, 22)]) }

/-- The `aCmpState` after `calculate-a-comparison` with `l = 3`, `k = 1`:
`comparison_a = 2^5 - 22 + 2^3 + 0 - 22 = -4`. -/
def aCmpState' : NodeState :=
  { aCmpState with shares := dictSet aCmpState.shares "comparison_a" (PyVal.int (-4)) }

/-- The spec's sequence-of-evaluations form: the value at `x` of the
polynomial whose coefficient list (constant term first) is given,
reduced mod `p`. Stated from the spec's words for comparison with the
source's `f`/`Shamir`. -/
def specPolyEval (coefficients : List Nat) (x p : Nat) : Nat :=
  (((List.range coefficients.length).map (fun i => coefficients.getD i 0 * x ^ i)).sum) % p

/-- A 3-party node (`t = 1`, `p = 7`, `id = 2`) ready for Round R:
`A` computed, `shared_q` full, operands `x = 4`, `y = 5` stored. -/
def rWitState : NodeState :=
  { initialState with
    t := some 1, n := some 3, idv := some 2, p := some 7,
    parties := some ["p1", "p2", "p3"],
    A := some [[1, 2, 3], [4, 5, 6], [7, 8, 9]],
    shares := [("client_shares", PyVal.none),
      ("shared_r", PyVal.arr [Option.none, Option.none, Option.none]),
      ("shared_q", PyVal.arr [some 1, some 2, some 3]),
      ("shared_u", PyVal.none), ("x", PyVal.int 4), ("y", PyVal.int 5)] }

/-- The evaluation node of party `i` (0-based): the field element `i + 1`. -/
def nodeOf (p : ℕ) (i : ℕ) : ZMod p := ((i + 1 : ℕ) : ZMod p)

/-- The `(id, value)` share pairs as the reconstruction endpoint consumes
them: integer-typed points `(i, f(i))`. -/
def toIntShares (shares : List (Nat × Nat)) : List (Int × Int) :=
  shares.map (fun ab => ((ab.1 : Int), (ab.2 : Int)))

/-! ## Dictionary lemmas -/

theorem find?_map_overwrite (d : List (String × PyVal)) (k : String) (v : PyVal) :
    (d.map (fun kv => if kv.1 = k then (k, v) else kv)).find? (fun kv => kv.1 = k)
      = if d.any (fun kv => kv.1 = k) then some (k, v) else Option.none := by
  induction d with
  | nil => simp
  | cons a rest ih =>
    simp only [List.map_cons, List.any_cons]
    by_cases h : a.1 = k
    · rw [if_pos h, List.find?_cons_of_pos _ (by simp)]
      simp [h]
    · rw [if_neg h, List.find?_cons_of_neg _ (by simp [h]), ih]
      have hd : decide (a.1 = k) = false := by simp [h]
      simp only [hd, Bool.false_or]

theorem find?_map_overwrite_ne (d : List (String × PyVal)) (k k' : String) (v : PyVal)
    (h : k' ≠ k) :
    (d.map (fun kv => if kv.1 = k then (k, v) else kv)).find? (fun kv => kv.1 = k')
      = d.find? (fun kv => kv.1 = k') := by
  induction d with
  | nil => simp
  | cons a rest ih =>
    simp only [List.map_cons]
    by_cases ha : a.1 = k
    · have ha' : ¬ a.1 = k' := by rw [ha]; exact fun hh => h hh.symm
      rw [if_pos ha, List.find?_cons_of_neg _ (by simp; exact fun hh => h hh.symm),
        List.find?_cons_of_neg _ (by simp [ha'])]
      exact ih
    · by_cases ha' : a.1 = k'
      · rw [if_neg ha, List.find?_cons_of_pos _ (by simp [ha']),
          List.find?_cons_of_pos _ (by simp [ha'])]
      · rw [if_neg ha, List.find?_cons_of_neg _ (by simp [ha']),
          List.find?_cons_of_neg _ (by simp [ha'])]
        exact ih

theorem dictLookup_dictSet_self (d : List (String × PyVal)) (k : String) (v : PyVal) :
    dictLookup (dictSet d k v) k = some v := by
  unfold dictSet dictLookup
  by_cases h : d.any (fun kv => kv.1 = k)
  · rw [if_pos h, find?_map_overwrite, if_pos h]
    rfl
  · rw [if_neg h, List.find?_append]
    have hnone : d.find? (fun kv => decide (kv.1 = k)) = Option.none := by
      rw [List.find?_eq_none]
      intro x hx hc
      apply h
      rw [List.any_eq_true]
      exact ⟨x, hx, hc⟩
    rw [hnone, List.find?_cons_of_pos _ (by simp)]
    rfl

theorem dictLookup_dictSet_ne (d : List (String × PyVal)) (k k' : String) (v : PyVal)
    (h : k' ≠ k) : dictLookup (dictSet d k v) k' = dictLookup d k' := by
  unfold dictSet dictLookup
  by_cases hany : d.any (fun kv => kv.1 = k)
  · rw [if_pos hany, find?_map_overwrite_ne _ _ _ _ h]
  · rw [if_neg hany, List.find?_append,
      List.find?_cons_of_neg _ (by simp; exact fun hh => h hh.symm)]
    cases hf : d.find? (fun kv => decide (kv.1 = k')) <;> simp [hf]

theorem dictGet_dictSet_self (d : List (String × PyVal)) (k : String) (v : PyVal) :
    dictGet (dictSet d k v) k = v := by
  unfold dictGet
  rw [dictLookup_dictSet_self]
  rfl

theorem dictGet_dictSet_ne (d : List (String × PyVal)) (k k' : String) (v : PyVal)
    (h : k' ≠ k) : dictGet (dictSet d k v) k' = dictGet d k' := by
  unfold dictGet
  rw [dictLookup_dictSet_ne _ _ _ _ h]

theorem dictLookup_of_dictGet_ne_none (d : List (String × PyVal)) (k : String)
    (h : dictGet d k ≠ PyVal.none) : dictLookup d k = some (dictGet d k) := by
  unfold dictGet at h
  cases hl : dictLookup d k with
  | none => rw [hl] at h; simp at h
  | some w => simp [dictGet, hl]

/-! ## C10: `set-shares` writes unconditionally -/

/-- C10: for every caller-chosen share name and hexadecimal payload, the
`set-shares` operation writes `shares[name] = int(value, 16)` with no name
restriction and no occupancy check, and changes no other state component:
the successor state differs from the prior one only in the `shares`
dictionary, where every key other than the written one keeps its binding —
so the reserved keys (`shared_q`, `shared_r`, `shared_u`,
`client_shares`) can have their whole slot arrays replaced by a single
integer, bypassing the duplicate-slot guards of the receive handlers. -/
theorem set_shares_unrestricted_write (st : NodeState)
    (share_name share_value : String) (v : Nat)
    (hv : hexToNat share_value = some v) :
    set_shares st true share_name share_value =
      Except.ok { st with shares := dictSet st.shares share_name (PyVal.int ((v : Int))) } ∧
    dictGet (dictSet st.shares share_name (PyVal.int ((v : Int)))) share_name
      = PyVal.int ((v : Int)) ∧
    ∀ k', k' ≠ share_name →
      dictLookup (dictSet st.shares share_name (PyVal.int ((v : Int)))) k'
        = dictLookup st.shares k' := by
  refine ⟨?_, dictGet_dictSet_self _ _ _, fun k' hk => dictLookup_dictSet_ne _ _ _ _ hk⟩
  simp [set_shares, hv]

/-- Witness for C10: overwriting the reserved `shared_q` key of a freshly
booted node with the integer `7`. -/
theorem set_shares_unrestricted_write_witness :
    hexToNat "0x7" = some 7 ∧
    set_shares initialState true "shared_q" "0x7" =
      Except.ok { initialState with
        shares := dictSet initialState.shares "shared_q" (PyVal.int 7) } :=
  ⟨by decide, (set_shares_unrestricted_write initialState "shared_q" "0x7" 7 (by decide)).1⟩

/-! ## C5: `return-share-to-reconstruct` refuses raw share names -/

/-- C5: for every state of the share store and every requested name whose
trimmed, lower-cased form is one of `client_shares`, `shared_r`,
`shared_q`, `shared_u`, the `return-share-to-reconstruct` operation
rejects the request with an error and returns no share value (the only
non-error exit is the final `ok`, which is never reached). -/
theorem return_share_refuses_raw_names (st : NodeState) (trusted : Bool)
    (name : String) (h : pyLower (pyStrip name) ∈ forbidden_keys) :
    get_share_to_reconstruct st trusted name =
      Except.error (PyErr.http "You do not have permission to access this resource.") := by
  unfold get_share_to_reconstruct
  cases trusted with
  | false => rfl
  | true =>
    have hid : pyLower (pyLower (pyStrip name)) = pyLower (pyStrip name) := by
      simp only [forbidden_keys, List.mem_cons, List.not_mem_nil, or_false] at h
      rcases h with h | h | h | h <;> rw [h] <;> rfl
    have hany : (st.shares.filter
        (fun kv => !(forbidden_keys.contains (pyLower kv.1)))).any
          (fun kv => kv.1 = pyLower (pyStrip name)) = false := by
      rw [List.any_eq_false]
      intro kv hkv
      simp only [decide_eq_true_eq]
      intro hkeq
      have hmem := List.of_mem_filter hkv
      rw [hkeq, hid] at hmem
      simp only [Bool.not_eq_true'] at hmem
      have : pyLower (pyStrip name) ∉ forbidden_keys := by
        intro hin
        have hc : forbidden_keys.contains (pyLower (pyStrip name)) = true :=
          List.contains_iff_exists_mem_beq.mpr ⟨_, hin, by simp⟩
        rw [hmem] at hc
        exact Bool.false_ne_true hc
      exact this h
    simp only [Bool.not_true, Bool.false_eq_true, if_false, hany, Bool.not_false, if_true]

/-- Witness for C5: requesting `shared_q` from a freshly booted node. -/
theorem return_share_refuses_raw_names_witness :
    pyLower (pyStrip "shared_q") ∈ forbidden_keys ∧
    get_share_to_reconstruct initialState true "shared_q" =
      Except.error (PyErr.http "You do not have permission to access this resource.") :=
  ⟨by decide, return_share_refuses_raw_names initialState true "shared_q" (by decide)⟩

/-! ## Index helper lemmas -/

theorem pyIndex_nonneg {α : Type} (xs : List α) (i : Int) (h0 : 0 ≤ i) :
    pyIndex xs i = xs.get? i.toNat := by
  unfold pyIndex
  have hneg : ¬ i < 0 := by omega
  simp only [if_neg hneg, if_pos h0]

theorem pySet_nonneg {α : Type} (xs : List α) (i : Int) (v : α) (h0 : 0 ≤ i)
    (hl : i < (xs.length : Int)) :
    pySet xs i v = some (xs.set i.toNat v) := by
  unfold pySet
  have hneg : ¬ i < 0 := by omega
  simp only [if_neg hneg, if_pos (And.intro h0 hl)]

/-! ## C7: duplicate `receive-q` is rejected, fresh slots are written -/

/-- C7: with the `shared_q` buffer holding the array `xs`, (i) if slot
`sid - 1` is already non-`None`, a `receive-q` from sender `sid` fails
with an error — and, the handler's only state write being the final slot
assignment, the stored payload is untouched; (ii) if the slot is `None`
and `1 ≤ sid ≤ n`, the parsed hexadecimal payload is stored into that
slot. -/
theorem set_received_q_spec (st : NodeState) (sid : Int) (s : String) (v : Nat)
    (xs : List (Option Int))
    (hq : dictGet st.shares "shared_q" = PyVal.arr xs) :
    ((∃ w, pyIndex xs (sid - 1) = some (some w)) →
      ∃ e, set_received_q st true sid s = Except.error e) ∧
    (pyIndex xs (sid - 1) = some Option.none → 1 ≤ sid → sid ≤ (xs.length : Int) →
      hexToNat s = some v →
      set_received_q st true sid s = Except.ok { st with shares := dictSet st.shares "shared_q" (PyVal.arr (xs.set (sid - 1).toNat (some ((v : Int))))) }) := by
  have hlook : dictLookup st.shares "shared_q" = some (PyVal.arr xs) := by
    have := dictLookup_of_dictGet_ne_none st.shares "shared_q" (by rw [hq]; simp)
    rw [hq] at this
    exact this
  constructor
  · rintro ⟨w, hw⟩
    by_cases hrange : sid > (xs.length : Int) ∨ sid < 1
    · refine ⟨PyErr.http "Invalid party id.", ?_⟩
      simp [set_received_q, validate_initialized_shares, hlook, andThen, hq, pyLen, hrange]
    · refine ⟨PyErr.http "q is already set from this party.", ?_⟩
      simp [set_received_q, validate_initialized_shares, hlook, andThen, hq, pyLen, hrange, hw]
  · intro hslot h1 hn hv
    have hrange : ¬ (sid > (xs.length : Int) ∨ sid < 1) := by omega
    have hset : pySet xs (sid - 1) (some ((v : Int))) =
        some (xs.set (sid - 1).toNat (some ((v : Int)))) :=
      pySet_nonneg _ _ _ (by omega) (by omega)
    simp [set_received_q, validate_initialized_shares, hlook, andThen, hq, pyLen, hrange,
      hslot, hv, hset]

/-- Witness for C7: on `qWitState`, sender 1's fresh payload `0x5` is
stored into slot 0. -/
theorem set_received_q_spec_witness :
    pyIndex [Option.none, Option.none, some (3 : Int)] 0 = some Option.none ∧
    hexToNat "0x5" = some 5 ∧
    set_received_q qWitState true 1 "0x5" = Except.ok { qWitState with shares := dictSet qWitState.shares "shared_q" (PyVal.arr ([Option.none, Option.none, some 3].set 0 (some 5))) } := by
  refine ⟨by decide, by decide, ?_⟩
  exact (set_received_q_spec qWitState 1 "0x5" 5 [Option.none, Option.none, some 3]
    (by decide)).2 (by decide) (by decide) (by decide) (by decide)

/-! ## C6: `receive-u` lacks the duplicate-slot guard -/

/-- C6 (code bug): a second `receive-u` from sender 2 — whose slot is
already non-`None` — succeeds and overwrites the stored value, although
the handler's own OpenAPI responses document an
`"u is already set from this party."` rejection. The claimed
`iff slot is None` condition fails: the slot was `some 5` and the call
still wrote `some 9`. -/
theorem receive_u_overwrites_duplicate :
    dictGet uDupState.shares "shared_u" = PyVal.arr [Option.none, some 5, Option.none] ∧
    receive_u_from_parties uDupState true 2 "0x9" = Except.ok { uDupState with shares := dictSet uDupState.shares "shared_u" (PyVal.arr [Option.none, some 9, Option.none]) } ∧
    dictGet (dictSet uDupState.shares "shared_u" (PyVal.arr [Option.none, some 9, Option.none])) "shared_u" ≠ PyVal.arr [Option.none, some 5, Option.none] := by
  refine ⟨by decide, by rfl, by decide⟩

/-! ## C8: `prepare-z-tables` pads to `l + k`, not `l + k + 2` -/

/-- C8 (code bug): with `opened_a = 0x0`, `l = 3`, `k = 1` the padded bit
list has length `l + k = 4`, not the specified `l + k + 2 = 6`; in
particular `comparison_a_bits[l + k + 1]` is not defined. -/
theorem prepare_z_tables_pads_to_l_plus_k :
    prepare_z_tables initialState true 3 1 "0x0" = Except.ok { initialState with comparison_a_bits := [0, 0, 0, 0], z_table := [PyVal.int 0, PyVal.int 0, PyVal.int 0], Z_table := [PyVal.int 0, PyVal.int 0, PyVal.int 0] } ∧
    ([0, 0, 0, 0] : List Nat).length = 3 + 1 ∧
    ([0, 0, 0, 0] : List Nat).length ≠ 3 + 1 + 2 ∧
    ¬ (3 + 1 + 1 < ([0, 0, 0, 0] : List Nat).length) := by
  refine ⟨by rfl, by decide, by decide, by decide⟩

/-! ## C9: `calc-add-of-z-table` adds an `int` to the stored tuple -/

/-- C9 (code bug): `set-temporary` stores the pair `(id, value)` at the
index, and the subsequent `calc-add-of-z-table/0` — whose indices are all
in bounds — computes `int + tuple`, a `TypeError`: no additive share is
produced, where the spec's table promises `a_i + r_i mod p`. -/
theorem calc_add_z_table_type_error :
    set_temporary_random_bit_share zAddState true 0 = Except.ok zAddState' ∧
    zAddState'.random_number_bit_shares = [PyVal.tup (PyVal.int 2) (PyVal.int 1)] ∧
    (0 : Int) < (zAddState'.comparison_a_bits.length : Int) ∧
    (0 : Int) < (zAddState'.random_number_bit_shares.length : Int) ∧
    calculate_additive_share_of_z_table zAddState' true 0 = Except.error PyErr.typeError ∧
    zAddState'.additive_share = Option.none := by
  refine ⟨by rfl, by decide, by decide, by decide, by rfl, by decide⟩

/-! ## C4: `calculate-a-comparison` stores the unreduced integer -/

/-- C4 (counterexample): the stored `comparison_a` is the unreduced
integer `-4`, which differs from the mod-`p` reduction `19` and lies
outside `[0, p)`. -/
theorem calculate_a_comparison_not_reduced :
    calculate_a_comparison aCmpState true 1 2 3 1 = Except.ok aCmpState' ∧
    dictGet aCmpState'.shares "comparison_a" = PyVal.int (-4) ∧
    ((2 : Int) ^ (3 + 1 + 1) - 22 + 2 ^ 3 + 0 - 22) % 23 = 19 ∧
    (-4 : Int) ≠ 19 ∧
    ¬ (0 ≤ (-4 : Int) ∧ (-4 : Int) < 23) := by
  refine ⟨by rfl, by decide, by decide, by decide, by decide⟩

/-- C4 (amended): for every state with `random_number_share = r` and both
client shares present, `calculate-a-comparison` stores
`comparison_a = 2^(l+k+1) - r + 2^l + x - y` exactly, with no mod-`p`
reduction (so the stored value need not lie in `[0, p)`). -/
theorem calculate_a_comparison_stores_unreduced (st : NodeState)
    (cid1 cid2 : Int) (l k : Nat) (r x y : Int) (cl : List (Int × Int))
    (hr : st.random_number_share = some r)
    (hcs : dictGet st.shares "client_shares" = PyVal.clients cl)
    (hlen : 2 ≤ cl.length)
    (hne : cid1 ≠ cid2)
    (hx : findClientShare cl cid1 = some x)
    (hy : findClientShare cl cid2 = some y) :
    calculate_a_comparison st true cid1 cid2 l k = Except.ok { st with shares := dictSet st.shares "comparison_a" (PyVal.int (2 ^ (l + k + 1) - r + 2 ^ l + x - y)) } := by
  have hlook : dictLookup st.shares "client_shares" = some (PyVal.clients cl) := by
    have := dictLookup_of_dictGet_ne_none st.shares "client_shares" (by rw [hcs]; simp)
    rw [hcs] at this
    exact this
  have hlt : ¬ cl.length < 2 := by omega
  simp [calculate_a_comparison, validate_initialized, validate_initialized_shares,
    stateKeyIsNone, hr, hlook, andThen, hcs, pyLen, hlt, hne, hx, hy]

/-- Witness for C4's amended theorem: the concrete `aCmpState` instance,
where the stored value is `-4`. -/
theorem calculate_a_comparison_stores_unreduced_witness :
    calculate_a_comparison aCmpState true 1 2 3 1 = Except.ok { aCmpState with shares := dictSet aCmpState.shares "comparison_a" (PyVal.int (2 ^ (3 + 1 + 1) - 22 + 2 ^ 3 + 0 - 22)) } :=
  calculate_a_comparison_stores_unreduced aCmpState 1 2 3 1 22 0 22 [(1, 0), (2, 22)]
    (by decide) (by decide) (by decide) (by decide) (by decide) (by decide)

/-! ## C2: the degree of the `Shamir` polynomial -/

theorem getLastD_eq_getD (xs : List Nat) (hne : xs ≠ []) :
    xs.getLastD 0 = xs.getD (xs.length - 1) 0 := by
  induction xs with
  | nil => cases hne rfl
  | cons a rest ih =>
    cases rest with
    | nil => rfl
    | cons b rest' =>
      have : (a :: b :: rest').getLastD 0 = (b :: rest').getLastD 0 := rfl
      rw [this, ih (by simp)]
      simp [List.getD]

/-- C2 (counterexample): `Shamir(1, 3, 1, 5)` (with sampled coefficient 3,
resample 1) returns the constant sequence `[(1,1),(2,1),(3,1)]`, which is
not the evaluation sequence of any polynomial of degree exactly `t = 1`
(constant term `k0 = 1`, nonzero `a_1 ∈ [0, 5)`). -/
theorem Shamir_not_degree_t :
    ¬ ∃ a1 : Fin 5, (a1 : Nat) ≠ 0 ∧
      Shamir 1 3 1 5 [3] 1 =
        (List.range 3).map (fun i => (i + 1, specPolyEval [1, (a1 : Nat)] (i + 1) 5)) := by
  decide

/-- C2 (amended): `Shamir(t, n, k0, p)` returns the evaluations
`[(1, g(1)), …, (n, g(n))]` of a polynomial `g` with `t` coefficients —
degree at most `t - 1` — whose leading coefficient `c_{t-1}` is nonzero
and whose constant term is `k0`, provided `t ≥ 2` or `k0 ≠ 0` (for
`t = 1, k0 = 0` the resampling overwrites the secret itself). Round Q's
call `Shamir(2t, n, 0, p)` is the instance `t := 2t ≥ 2`, `k0 := 0`. -/
theorem Shamir_eval_degree (t n k0 p : Nat) (rand : List Nat) (resample : Nat)
    (ht : 1 ≤ t) (hrand : rand.length = t) (hres1 : 1 ≤ resample)
    (hnz : ¬ (t = 1 ∧ k0 = 0)) :
    ∃ cs : List Nat, cs.length = t ∧ cs.getD 0 0 = k0 ∧ cs.getLastD 0 ≠ 0 ∧
      Shamir t n k0 p rand resample =
        (List.range n).map (fun i => (i + 1, specPolyEval cs (i + 1) p)) := by
  refine ⟨shamirCoefficients t k0 rand resample, ?_, ?_, ?_, ?_⟩
  case _ =>
    simp only [shamirCoefficients]
    split <;> simp [List.length_set, List.length_take, hrand]
  case _ =>
    -- the constant term survives: index 0 is written with `k0` and the
    -- resample (if any) hits index `t - 1 ≠ 0`
    have hlen : ((rand.take t).set 0 k0).length = t := by
      simp [List.length_set, List.length_take, hrand]
    have hget0 : ((rand.take t).set 0 k0).getD 0 0 = k0 := by
      rw [List.getD_eq_getElem?_getD, List.getElem?_set_self (by simp [hrand]; omega)]
      rfl
    simp only [shamirCoefficients]
    split
    case isTrue hlast =>
      rcases Nat.lt_or_ge 1 t with ht2 | ht1
      · -- t ≥ 2: the resample misses index 0
        rw [List.getD_eq_getElem?_getD, List.getElem?_set_ne (by omega),
          ← List.getD_eq_getElem?_getD, hget0]
      · -- t = 1: then the list is `[k0]` and the branch condition forces
        -- `k0 = 0`, excluded by `hnz`
        have ht1' : t = 1 := by omega
        have hne2 : ((rand.take t).set 0 k0) ≠ [] := by
          rw [← List.length_pos_iff_ne_nil, hlen]; omega
        rw [getLastD_eq_getD _ hne2, hlen] at hlast
        have ht0 : t - 1 = 0 := by omega
        rw [ht0, hget0] at hlast
        exact absurd ⟨ht1', hlast⟩ hnz
    case isFalse => exact hget0
  case _ =>
    have hlen : ((rand.take t).set 0 k0).length = t := by
      simp [List.length_set, List.length_take, hrand]
    simp only [shamirCoefficients]
    split
    case isTrue hlast =>
      have hlen2 : (((rand.take t).set 0 k0).set (t - 1) resample).length = t := by
        simp [hlen]
      rw [getLastD_eq_getD _ (by rw [← List.length_pos_iff_ne_nil, hlen2]; omega), hlen2,
        List.getD_eq_getElem?_getD, List.getElem?_set_self (by rw [hlen]; omega)]
      simp
      omega
    case isFalse hlast => exact hlast
  case _ =>
    have hlen : (shamirCoefficients t k0 rand resample).length = t := by
      simp only [shamirCoefficients]
      split <;> simp [List.length_set, List.length_take, hrand]
    unfold Shamir specPolyEval f
    rw [hlen]

/-- Witness for C2's amended theorem, at Round Q's own shape
(`t := 2·1`, `k0 := 0`): `Shamir(2, 3, 0, 5)` with sampled coefficients
`[0, 0]` and resample `1`. -/
theorem Shamir_eval_degree_witness :
    ∃ cs : List Nat, cs.length = 2 ∧ cs.getD 0 0 = 0 ∧ cs.getLastD 0 ≠ 0 ∧
      Shamir 2 3 0 5 [0, 0] 1 =
        (List.range 3).map (fun i => (i + 1, specPolyEval cs (i + 1) 5)) :=
  Shamir_eval_degree 2 3 0 5 [0, 0] 1 (by decide) (by decide) (by decide) (by decide)

/-! ## C1: `redistribute-r` computes and dispatches the r-shares -/

theorem getD_map_range {α : Type} (g : Nat → α) (d : α) (n i : Nat) (h : i < n) :
    ((List.range n).map g).getD i d = g i := by
  rw [List.getD_eq_getElem?_getD, List.getElem?_map, List.getElem?_range h]
  rfl

theorem rValues_spec (A : List (List Int)) (idI m p : Int) (row : List Int)
    (hrow : pyIndex A (idI - 1) = some row) :
    ∀ L : List Nat, (∀ i ∈ L, i < row.length) →
      rValues A idI m p L = Except.ok (L.map (fun i => (m * row.getD i 0) % p)) := by
  intro L
  induction L with
  | nil => intro _; rfl
  | cons i rest ih =>
    intro hL
    have hi : i < row.length := hL i (List.mem_cons_self i rest)
    have hidx : pyIndex row (i : Int) = some (row.getD i 0) := by
      rw [pyIndex_nonneg _ _ (by omega)]
      rw [Int.toNat_natCast, List.get?_eq_getElem?, List.getElem?_eq_getElem hi,
        List.getD_eq_getElem?_getD, List.getElem?_eq_getElem hi]
      rfl
    rw [rValues]
    simp only [hrow, hidx]
    rw [ih (fun j hj => hL j (List.mem_cons_of_mem i hj))]
    simp

theorem rLoop_no_store (parties : List String) (idI : Int) (r : List Int) :
    ∀ (L : List Nat) (d : List (String × PyVal)) (msgs : List (Nat × Int)),
      (∀ i ∈ L, (i : Int) ≠ idI - 1 ∧ i < parties.length) →
      rDistributeLoop parties idI r d msgs L =
        Except.ok (d, msgs ++ L.map (fun i => (i, r.getD i 0))) := by
  intro L
  induction L with
  | nil => intro d msgs _; simp [rDistributeLoop]
  | cons i rest ih =>
    intro d msgs hL
    obtain ⟨hne, hlt⟩ := hL i (List.mem_cons_self i rest)
    have hidx : ∃ u, pyIndex parties (i : Int) = some u := by
      rw [pyIndex_nonneg _ _ (by omega), Int.toNat_natCast, List.get?_eq_getElem?,
        List.getElem?_eq_getElem hlt]
      exact ⟨_, rfl⟩
    obtain ⟨u, hu⟩ := hidx
    rw [rDistributeLoop, if_neg hne, hu, ih _ _ (fun j hj => hL j (List.mem_cons_of_mem i hj))]
    simp

theorem rLoop_append (parties : List String) (idI : Int) (r : List Int) :
    ∀ (L1 L2 : List Nat) (d : List (String × PyVal)) (msgs : List (Nat × Int))
      (d' : List (String × PyVal)) (msgs' : List (Nat × Int)),
      rDistributeLoop parties idI r d msgs L1 = Except.ok (d', msgs') →
      rDistributeLoop parties idI r d msgs (L1 ++ L2) =
        rDistributeLoop parties idI r d' msgs' L2 := by
  intro L1
  induction L1 with
  | nil =>
    intro L2 d msgs d' msgs' h
    rw [rDistributeLoop] at h
    cases h
    rfl
  | cons i rest ih =>
    intro L2 d msgs d' msgs' h
    rw [rDistributeLoop] at h
    rw [List.cons_append, rDistributeLoop]
    by_cases hif : (i : Int) = idI - 1
    · rw [if_pos hif] at h ⊢
      cases hget : dictGet d "shared_r" with
      | arr xs =>
        simp only [hget] at h ⊢
        cases hset : pySet xs (i : Int) (some (r.getD i 0)) with
        | none => simp only [hset] at h; simp at h
        | some xs' =>
          simp only [hset] at h ⊢
          exact ih _ _ _ _ _ h
      | none => simp only [hget] at h; simp at h
      | int m => simp only [hget] at h; simp at h
      | tup a b => simp only [hget] at h; simp at h
      | clients xs => simp only [hget] at h; simp at h
    · rw [if_neg hif] at h ⊢
      cases hidx : pyIndex parties (i : Int) with
      | none => simp only [hidx] at h; simp at h
      | some u =>
        simp only [hidx] at h ⊢
        exact ih _ _ _ _ _ h

theorem andThen_ok {α : Type} (x : Except PyErr α) :
    andThen (Except.ok ()) x = x := rfl

/-- C1: in a node state where `t, n, p, id, parties, A` are initialized,
both operand names resolve to integers `first` and `second`, and all `n`
slots of `shared_q` are filled, `redistribute-r` computes
`m = (first·second + Σ shared_q) mod p`, stores
`shared_r[id-1] = m·A[id-1][id-1] mod p` locally, and dispatches
`m·A[id-1][i] mod p` to every other peer `i`. The hypotheses also carry
the data-model invariants of the spec (`id ∈ [1..n]`, `|parties| = n`,
`A` of size `n×n`, slot arrays of length `n`). -/
theorem redistribute_r_spec
    (st : NodeState) (first_name second_name : String)
    (n : Nat) (p idI tv firstI secondI : Int)
    (A : List (List Int)) (row : List Int)
    (parties : List String) (qs rs : List (Option Int))
    (hn : st.n = some (n : Int)) (hp : st.p = some p) (htv : st.t = some tv)
    (hid : st.idv = some idI) (hparties : st.parties = some parties)
    (hA : st.A = some A)
    (hfirst : dictGet st.shares first_name = PyVal.int firstI)
    (hsecond : dictGet st.shares second_name = PyVal.int secondI)
    (hq : dictGet st.shares "shared_q" = PyVal.arr qs)
    (hqfull : ∀ x ∈ qs, x.isSome = true)
    (hr : dictGet st.shares "shared_r" = PyVal.arr rs)
    (hid1 : 1 ≤ idI) (hidn : idI ≤ (n : Int))
    (hrow : pyIndex A (idI - 1) = some row)
    (hrowlen : n ≤ row.length)
    (hparlen : parties.length = n)
    (hrslen : rs.length = n) :
    redistribute_r st true first_name second_name = Except.ok
      ({ st with shares := dictSet st.shares "shared_r" (PyVal.arr (rs.set (idI - 1).toNat (some ((((firstI * secondI + sumArr qs) % p) * row.getD (idI - 1).toNat 0) % p)))) },
        ((List.range n).filter (fun i => i ≠ (idI - 1).toNat)).map
          (fun i => (i, (((firstI * secondI + sumArr qs) % p) * row.getD i 0) % p))) := by
  have hpos : (0 : Int) ≤ idI - 1 := by omega
  have hixI : (((idI - 1).toNat : Nat) : Int) = idI - 1 := Int.toNat_of_nonneg hpos
  have hixn : (idI - 1).toNat < n := by omega
  have hrget : ∀ i, i < n →
      ((List.range n).map (fun i => ((((firstI * secondI + sumArr qs) % p) * row.getD i 0) % p))).getD i 0
        = (((firstI * secondI + sumArr qs) % p) * row.getD i 0) % p :=
    fun i hi => getD_map_range _ 0 n i hi
  have hlookr : dictLookup st.shares "shared_r" = some (PyVal.arr rs) := by
    have hx := dictLookup_of_dictGet_ne_none st.shares "shared_r" (by rw [hr]; simp)
    rw [hr] at hx; exact hx
  have hlookq : dictLookup st.shares "shared_q" = some (PyVal.arr qs) := by
    have hx := dictLookup_of_dictGet_ne_none st.shares "shared_q" (by rw [hq]; simp)
    rw [hq] at hx; exact hx
  have hval1 : validate_initialized st ["n", "p", "t", "id", "parties", "A"] = Except.ok () := by
    simp [validate_initialized, stateKeyIsNone, hn, hp, htv, hid, hparties, hA]
  have hval2 : validate_initialized_shares st ["shared_r"] = Except.ok () := by
    simp [validate_initialized_shares, hlookr]
  have hfull : pyArrFull (PyVal.arr qs) = true :=
    List.all_eq_true.mpr (fun x hx => hqfull x hx)
  have hval3 : validate_initialized_shares_array st ["shared_q"] = Except.ok () := by
    simp [validate_initialized_shares_array, hlookq, pyIsList, hfull]
  have hrv : rValues A idI ((firstI * secondI + sumArr qs) % p) p (List.range n)
      = Except.ok ((List.range n).map
        (fun i => ((((firstI * secondI + sumArr qs) % p) * row.getD i 0) % p))) :=
    rValues_spec A idI _ p row hrow (List.range n)
      (fun i hi => lt_of_lt_of_le (List.mem_range.mp hi) hrowlen)
  have hsplit : List.range n = List.range (idI - 1).toNat ++ (idI - 1).toNat ::
      (List.range (n - (idI - 1).toNat - 1)).map (fun j => (idI - 1).toNat + (j + 1)) := by
    have h1 : n = (idI - 1).toNat + (n - (idI - 1).toNat) := by omega
    have h2 : n - (idI - 1).toNat = (n - (idI - 1).toNat - 1) + 1 := by omega
    conv_lhs => rw [h1, List.range_add, h2, List.range_succ_eq_map]
    simp [List.map_map]
  have hL1run := rLoop_no_store parties idI
    ((List.range n).map (fun i => ((((firstI * secondI + sumArr qs) % p) * row.getD i 0) % p)))
    (List.range (idI - 1).toNat) st.shares []
    (fun i hi => by
      have hiI := List.mem_range.mp hi
      constructor
      · omega
      · omega)
  have hstore : rDistributeLoop parties idI
      ((List.range n).map (fun i => ((((firstI * secondI + sumArr qs) % p) * row.getD i 0) % p)))
      st.shares
      ((List.range (idI - 1).toNat).map (fun i => (i,
        ((List.range n).map (fun i => ((((firstI * secondI + sumArr qs) % p) * row.getD i 0) % p))).getD i 0)))
      ((idI - 1).toNat :: (List.range (n - (idI - 1).toNat - 1)).map (fun j => (idI - 1).toNat + (j + 1)))
      = Except.ok
        (dictSet st.shares "shared_r" (PyVal.arr (rs.set (idI - 1).toNat (some
          (((List.range n).map (fun i => ((((firstI * secondI + sumArr qs) % p) * row.getD i 0) % p))).getD (idI - 1).toNat 0)))),
         ((List.range (idI - 1).toNat).map (fun i => (i,
            ((List.range n).map (fun i => ((((firstI * secondI + sumArr qs) % p) * row.getD i 0) % p))).getD i 0)))
          ++ ((List.range (n - (idI - 1).toNat - 1)).map (fun j => (idI - 1).toNat + (j + 1))).map (fun i => (i,
            ((List.range n).map (fun i => ((((firstI * secondI + sumArr qs) % p) * row.getD i 0) % p))).getD i 0))) := by
    rw [rDistributeLoop, if_pos hixI]
    simp only [hr]
    rw [pySet_nonneg rs _ _ (by omega) (by omega)]
    simp only [Int.toNat_natCast]
    exact rLoop_no_store parties idI _ _ _ _
      (fun i hi => by
        simp only [List.mem_map, List.mem_range] at hi
        obtain ⟨j, hj, rfl⟩ := hi
        constructor
        · omega
        · omega)
  have happ := rLoop_append parties idI
    ((List.range n).map (fun i => ((((firstI * secondI + sumArr qs) % p) * row.getD i 0) % p)))
    (List.range (idI - 1).toNat)
    ((idI - 1).toNat :: (List.range (n - (idI - 1).toNat - 1)).map (fun j => (idI - 1).toNat + (j + 1)))
    st.shares [] st.shares _ hL1run
  have hloop : rDistributeLoop parties idI
      ((List.range n).map (fun i => ((((firstI * secondI + sumArr qs) % p) * row.getD i 0) % p)))
      st.shares [] (List.range n)
      = Except.ok
        (dictSet st.shares "shared_r" (PyVal.arr (rs.set (idI - 1).toNat (some
          (((List.range n).map (fun i => ((((firstI * secondI + sumArr qs) % p) * row.getD i 0) % p))).getD (idI - 1).toNat 0)))),
         ((List.range (idI - 1).toNat).map (fun i => (i,
            ((List.range n).map (fun i => ((((firstI * secondI + sumArr qs) % p) * row.getD i 0) % p))).getD i 0)))
          ++ ((List.range (n - (idI - 1).toNat - 1)).map (fun j => (idI - 1).toNat + (j + 1))).map (fun i => (i,
            ((List.range n).map (fun i => ((((firstI * secondI + sumArr qs) % p) * row.getD i 0) % p))).getD i 0))) := by
    have e1 := congrArg (fun L => rDistributeLoop parties idI
      ((List.range n).map (fun i => ((((firstI * secondI + sumArr qs) % p) * row.getD i 0) % p)))
      st.shares [] L) hsplit
    simp only [List.nil_append] at happ
    exact e1.trans (happ.trans hstore)
  have hmsgs : ((List.range (idI - 1).toNat).map (fun i => (i,
        ((List.range n).map (fun i => ((((firstI * secondI + sumArr qs) % p) * row.getD i 0) % p))).getD i 0)))
      ++ ((List.range (n - (idI - 1).toNat - 1)).map (fun j => (idI - 1).toNat + (j + 1))).map (fun i => (i,
        ((List.range n).map (fun i => ((((firstI * secondI + sumArr qs) % p) * row.getD i 0) % p))).getD i 0))
      = ((List.range n).filter (fun i => i ≠ (idI - 1).toNat)).map
          (fun i => (i, (((firstI * secondI + sumArr qs) % p) * row.getD i 0) % p)) := by
    conv_rhs => rw [hsplit]
    rw [List.filter_append, List.filter_cons_of_neg (by simp)]
    have hf1 : (List.range (idI - 1).toNat).filter (fun i => i ≠ (idI - 1).toNat)
        = List.range (idI - 1).toNat :=
      List.filter_eq_self.mpr (fun a ha => by
        have := List.mem_range.mp ha
        simp
        omega)
    have hf2 : ((List.range (n - (idI - 1).toNat - 1)).map
          (fun j => (idI - 1).toNat + (j + 1))).filter (fun i => i ≠ (idI - 1).toNat)
        = (List.range (n - (idI - 1).toNat - 1)).map (fun j => (idI - 1).toNat + (j + 1)) :=
      List.filter_eq_self.mpr (fun a ha => by
        simp only [List.mem_map, List.mem_range] at ha
        obtain ⟨j, hj, rfl⟩ := ha
        simp)
    rw [hf1, hf2, List.map_append]
    congr 1
    · exact List.map_congr_left (fun a ha => by
        rw [hrget a (lt_trans (List.mem_range.mp ha) hixn)])
    · exact List.map_congr_left (fun a ha => by
        simp only [List.mem_map, List.mem_range] at ha
        obtain ⟨j, hj, rfl⟩ := ha
        rw [hrget _ (by omega)])
  simp only [redistribute_r, Bool.not_true, Bool.false_eq_true, if_false, hval1, hval2, hval3,
    andThen_ok, hfirst, hsecond, hq]
  rw [if_neg (by simp)]
  simp only [hp, hn, hid, hA, hparties, Option.getD_some, Int.toNat_natCast]
  simp only [hrv, hloop]
  rw [hmsgs, hrget _ hixn]

/-- Witness for C1: on `rWitState`, `m = (4·5 + 6) mod 7 = 5`; the node
keeps `r[1] = 5·5 mod 7 = 4` and dispatches `(0, 6)` and `(2, 2)`. -/
theorem redistribute_r_spec_witness :
    redistribute_r rWitState true "x" "y" = Except.ok
      ({ rWitState with shares := dictSet rWitState.shares "shared_r" (PyVal.arr [Option.none, some 4, Option.none]) },
       [(0, 6), (2, 2)]) :=
  redistribute_r_spec rWitState "x" "y" 3 7 2 1 4 5
    [[1, 2, 3], [4, 5, 6], [7, 8, 9]] [4, 5, 6] ["p1", "p2", "p3"]
    [some 1, some 2, some 3] [Option.none, Option.none, Option.none]
    rfl rfl rfl rfl rfl rfl (by decide) (by decide) (by decide) (by decide)
    (by decide) (by decide) (by decide) (by decide) (by decide) (by decide) (by decide)

/-! ## C3: Lagrange round trip — cast lemmas -/

theorem binExpLoop_cast (p : ℕ) :
    ∀ (fuel k : Nat) (b a : Int), k ≤ fuel →
      ((binExpLoop fuel k b a (p : Int) : Int) : ZMod p)
        = (a : ZMod p) * (b : ZMod p) ^ k := by
  intro fuel
  induction fuel with
  | zero =>
    intro k b a hk
    have hk0 : k = 0 := by omega
    simp [binExpLoop, hk0]
  | succ fuel ih =>
    intro k b a hk
    rw [binExpLoop]
    by_cases hk0 : k = 0
    · simp [hk0]
    · rw [if_neg hk0, ih (k / 2) _ _ (by omega)]
      have hsq : (((b * b) % (p : Int) : Int) : ZMod p) = (b : ZMod p) ^ 2 := by
        push_cast [ZMod.intCast_mod]
        ring
      by_cases hpar : k % 2 = 1
      · rw [if_pos hpar]
        have h1 : (((a * b) % (p : Int) : Int) : ZMod p) = (a : ZMod p) * (b : ZMod p) := by
          push_cast [ZMod.intCast_mod]
          ring
        rw [h1, hsq, ← pow_mul]
        have hk2 : k = 2 * (k / 2) + 1 := by omega
        conv_rhs => rw [hk2]
        rw [pow_add, pow_mul, pow_one]
        ring
      · rw [if_neg hpar, hsq, ← pow_mul]
        have hk2 : k = 2 * (k / 2) := by omega
        conv_rhs => rw [hk2]

theorem binexp_inv_cast (p : ℕ) (hp : p.Prime) (b : Int)
    (hb : (b : ZMod p) ≠ 0) :
    ((binary_exponentiation b (-1) (p : Int) : Int) : ZMod p) = (b : ZMod p)⁻¹ := by
  haveI : Fact p.Prime := ⟨hp⟩
  have h2 : (2 : ℕ) ≤ p := hp.two_le
  unfold binary_exponentiation
  rw [if_pos (by norm_num : (-1 : Int) < 0)]
  have htn : ((p : Int) - 2).toNat = p - 2 := by omega
  rw [htn, binExpLoop_cast p _ _ _ _ (le_refl _)]
  rw [Int.cast_one, one_mul]
  have hfl := ZMod.pow_card_sub_one_eq_one hb
  have hmul : (b : ZMod p) ^ (p - 2) * (b : ZMod p) = 1 := by
    rw [← pow_succ]
    have hpp : p - 2 + 1 = p - 1 := by omega
    rw [hpp, hfl]
  exact eq_inv_of_mul_eq_one_left hmul

theorem foldl_mul_mod_cast (p : ℕ) (g : ℕ → ℤ) (i : ℕ) :
    ∀ (L : List ℕ) (init : ℤ),
      ((L.foldl (fun li j => if i ≠ j then (li * g j) % (p : Int) else li) init : Int) : ZMod p)
        = (init : ZMod p) * (L.map (fun j => if i ≠ j then (g j : ZMod p) else 1)).prod := by
  intro L
  induction L with
  | nil => intro init; simp
  | cons j rest ih =>
    intro init
    rw [List.foldl_cons, List.map_cons, List.prod_cons]
    by_cases hij : i ≠ j
    · rw [if_pos hij, if_pos hij, ih, ZMod.intCast_mod]
      push_cast
      ring
    · rw [if_neg hij, if_neg hij, ih]
      ring

theorem foldl_add_mod_cast (p : ℕ) (g : ℕ → ℤ) :
    ∀ (L : List ℕ) (init : ℤ),
      ((L.foldl (fun s j => (s + g j) % (p : Int)) init : Int) : ZMod p)
        = (init : ZMod p) + (L.map (fun j => (g j : ZMod p))).sum := by
  intro L
  induction L with
  | nil => intro init; simp
  | cons j rest ih =>
    intro init
    rw [List.foldl_cons, List.map_cons, List.sum_cons, ih, ZMod.intCast_mod]
    push_cast
    ring

theorem foldl_add_mod_mem (p : ℤ) (hp : 0 < p) (g : ℕ → ℤ) :
    ∀ (L : List ℕ) (init : ℤ), L ≠ [] →
      0 ≤ L.foldl (fun s j => (s + g j) % p) init ∧
        L.foldl (fun s j => (s + g j) % p) init < p := by
  intro L
  induction L with
  | nil => intro _ h; cases h rfl
  | cons j rest ih =>
    intro init _
    rw [List.foldl_cons]
    cases rest with
    | nil =>
      constructor
      · exact Int.emod_nonneg _ (by omega)
      · exact Int.emod_lt_of_pos _ hp
    | cons j2 rest2 => exact ih _ (by simp)

theorem map_range_prod {M : Type} [CommMonoid M] (g : ℕ → M) (n : ℕ) :
    ((List.range n).map g).prod = ∏ j ∈ Finset.range n, g j := by
  induction n with
  | zero => simp
  | succ n ih =>
    rw [List.range_succ, List.map_append, List.prod_append, Finset.prod_range_succ, ih]
    simp

theorem map_range_sum {M : Type} [AddCommMonoid M] (g : ℕ → M) (n : ℕ) :
    ((List.range n).map g).sum = ∑ j ∈ Finset.range n, g j := by
  induction n with
  | zero => simp
  | succ n ih =>
    rw [List.range_succ, List.map_append, List.sum_append, Finset.sum_range_succ, ih]
    simp

theorem prod_ite_ne_erase (p : ℕ) (n i : ℕ) (g : ℕ → ZMod p) :
    ∏ j ∈ Finset.range n, (if i ≠ j then g j else 1)
      = ∏ j ∈ (Finset.range n).erase i, g j := by
  rw [← Finset.prod_erase (Finset.range n)
    (by simp : (if i ≠ i then g i else 1) = 1)]
  exact Finset.prod_congr rfl (fun j hj => by
    rw [if_pos (Ne.symm (Finset.mem_erase.mp hj).1)])

theorem nodeOf_injOn (p n : ℕ) (hnp : n < p) :
    Set.InjOn (nodeOf p) (Finset.range n) := by
  intro a ha b hb hab
  simp only [Finset.coe_range, Set.mem_Iio] at ha hb
  have ha1 : a + 1 < p := by omega
  have hb1 : b + 1 < p := by omega
  have hv := congrArg ZMod.val hab
  rw [nodeOf, nodeOf, ZMod.val_cast_of_lt ha1, ZMod.val_cast_of_lt hb1] at hv
  omega

theorem lagrange_sum_eval_zero (p : ℕ) (hp : p.Prime) (n t : ℕ)
    (ht : 1 ≤ t) (htn : t ≤ n) (hnp : n < p) (c : ℕ → ZMod p) :
    ∑ i ∈ Finset.range n,
      ((∑ d ∈ Finset.range t, c d * nodeOf p i ^ d) *
        ∏ j ∈ (Finset.range n).erase i,
          (nodeOf p j * (nodeOf p j - nodeOf p i)⁻¹))
      = c 0 := by
  haveI : Fact p.Prime := ⟨hp⟩
  have hinj : Set.InjOn (nodeOf p) (Finset.range n) := nodeOf_injOn p n hnp
  have hdeg : (∑ d : Fin t, Polynomial.C (c d) * Polynomial.X ^ (d : ℕ)).degree
      < ((Finset.range n).card : WithBot ℕ) := by
    rw [Finset.card_range]
    exact lt_of_lt_of_le (Polynomial.degree_sum_fin_lt _) (by exact_mod_cast htn)
  have heq := Lagrange.eq_interpolate (s := Finset.range n) (v := nodeOf p) hinj hdeg
  have heval := congrArg (Polynomial.eval 0) heq
  have hF0 : (∑ d : Fin t, Polynomial.C (c d) * Polynomial.X ^ (d : ℕ)).eval 0 = c 0 := by
    rw [Polynomial.eval_finset_sum]
    have hconv : ∀ d : Fin t,
        Polynomial.eval 0 (Polynomial.C (c (d : ℕ)) * Polynomial.X ^ (d : ℕ))
          = c (d : ℕ) * 0 ^ (d : ℕ) := by
      intro d
      simp
    rw [Finset.sum_congr rfl (fun d _ => hconv d)]
    rw [Fin.sum_univ_eq_sum_range (fun d => c d * 0 ^ d) t]
    rw [Finset.sum_eq_single 0
      (fun d _ hd => by rw [zero_pow hd, mul_zero])
      (fun h0 => absurd (Finset.mem_range.mpr (by omega)) h0)]
    simp
  have hFv : ∀ i, (∑ d : Fin t, Polynomial.C (c d) * Polynomial.X ^ (d : ℕ)).eval (nodeOf p i)
      = ∑ d ∈ Finset.range t, c d * nodeOf p i ^ d := by
    intro i
    rw [Polynomial.eval_finset_sum]
    have hconv : ∀ d : Fin t,
        Polynomial.eval (nodeOf p i) (Polynomial.C (c (d : ℕ)) * Polynomial.X ^ (d : ℕ))
          = c (d : ℕ) * nodeOf p i ^ (d : ℕ) := by
      intro d
      simp
    rw [Finset.sum_congr rfl (fun d _ => hconv d)]
    exact Fin.sum_univ_eq_sum_range (fun d => c d * nodeOf p i ^ d) t
  have hbasis : ∀ i ∈ Finset.range n,
      (Lagrange.basis (Finset.range n) (nodeOf p) i).eval 0
        = ∏ j ∈ (Finset.range n).erase i, (nodeOf p j * (nodeOf p j - nodeOf p i)⁻¹) := by
    intro i _
    rw [Lagrange.basis, Polynomial.eval_prod]
    exact Finset.prod_congr rfl (fun j _ => by
      rw [Lagrange.basisDivisor]
      simp only [Polynomial.eval_mul, Polynomial.eval_C, Polynomial.eval_sub, Polynomial.eval_X]
      rw [zero_sub, show nodeOf p i - nodeOf p j = -(nodeOf p j - nodeOf p i) by ring, inv_neg]
      ring)
  have hinterp : (∑ d : Fin t, Polynomial.C (c d) * Polynomial.X ^ (d : ℕ)).eval 0
      = ∑ i ∈ Finset.range n,
          ((∑ d : Fin t, Polynomial.C (c d) * Polynomial.X ^ (d : ℕ)).eval (nodeOf p i))
            * (Lagrange.basis (Finset.range n) (nodeOf p) i).eval 0 := by
    conv_lhs => rw [heval]
    rw [Lagrange.interpolate_apply, Polynomial.eval_finset_sum]
    exact Finset.sum_congr rfl (fun i _ => by
      rw [Polynomial.eval_mul, Polynomial.eval_C])
  calc ∑ i ∈ Finset.range n,
      ((∑ d ∈ Finset.range t, c d * nodeOf p i ^ d) *
        ∏ j ∈ (Finset.range n).erase i,
          (nodeOf p j * (nodeOf p j - nodeOf p i)⁻¹))
      = ∑ i ∈ Finset.range n,
          ((∑ d : Fin t, Polynomial.C (c d) * Polynomial.X ^ (d : ℕ)).eval (nodeOf p i))
            * (Lagrange.basis (Finset.range n) (nodeOf p) i).eval 0 :=
        Finset.sum_congr rfl (fun i hi => by rw [hFv i, hbasis i hi])
    _ = (∑ d : Fin t, Polynomial.C (c d) * Polynomial.X ^ (d : ℕ)).eval 0 := hinterp.symm
    _ = c 0 := hF0

theorem shamirCoefficients_length (t k0 : ℕ) (rand : List ℕ) (resample : ℕ)
    (hrand : rand.length = t) :
    (shamirCoefficients t k0 rand resample).length = t := by
  simp only [shamirCoefficients]
  split <;> simp [List.length_set, List.length_take, hrand]

theorem shamirCoefficients_getD_zero (t k0 : ℕ) (rand : List ℕ) (resample : ℕ)
    (ht : 1 ≤ t) (hrand : rand.length = t) (hnz : ¬ (t = 1 ∧ k0 = 0)) :
    (shamirCoefficients t k0 rand resample).getD 0 0 = k0 := by
  have hlen : ((rand.take t).set 0 k0).length = t := by
    simp [List.length_set, List.length_take, hrand]
  have hget0 : ((rand.take t).set 0 k0).getD 0 0 = k0 := by
    rw [List.getD_eq_getElem?_getD, List.getElem?_set_self (by simp [hrand]; omega)]
    rfl
  simp only [shamirCoefficients]
  split
  case isTrue hlast =>
    rcases Nat.lt_or_ge 1 t with ht2 | ht1
    · rw [List.getD_eq_getElem?_getD, List.getElem?_set_ne (by omega),
        ← List.getD_eq_getElem?_getD, hget0]
    · have ht1' : t = 1 := by omega
      have hne2 : ((rand.take t).set 0 k0) ≠ [] := by
        rw [← List.length_pos_iff_ne_nil, hlen]; omega
      rw [getLastD_eq_getD _ hne2, hlen] at hlast
      have ht0 : t - 1 = 0 := by omega
      rw [ht0, hget0] at hlast
      exact absurd ⟨ht1', hlast⟩ hnz
  case isFalse => exact hget0

/-- C3 (amended): for `t ≥ 1`, `n = 2t+1 < p`, `p` prime and a secret
`k0 < p` — excluding `t = 1 ∧ k0 = 0`, where `Shamir` resamples the
constant term itself — reconstructing the `Shamir` shares through
`computate_coefficients` and `reconstruct_secret` returns exactly `k0`. -/
theorem lagrange_round_trip (t n p k0 : ℕ) (rand : List ℕ) (resample : ℕ)
    (hp : p.Prime) (ht : 1 ≤ t) (hn : n = 2 * t + 1) (hnp : n < p)
    (hk0 : k0 < p) (hrand : rand.length = t) (hnz : ¬ (t = 1 ∧ k0 = 0)) :
    reconstruct_secret (toIntShares (Shamir t n k0 p rand resample))
      (computate_coefficients (toIntShares (Shamir t n k0 p rand resample)) (p : Int))
      (p : Int) = (k0 : Int) := by
  haveI : Fact p.Prime := ⟨hp⟩
  have hp2 : 2 ≤ p := hp.two_le
  have hSI : toIntShares (Shamir t n k0 p rand resample)
      = (List.range n).map (fun i => (((i + 1 : ℕ) : ℤ),
          ((f (i + 1) (shamirCoefficients t k0 rand resample) p t : ℕ) : ℤ))) := by
    simp [toIntShares, Shamir, List.map_map]
  have hSIlen : (toIntShares (Shamir t n k0 p rand resample)).length = n := by
    rw [hSI, List.length_map, List.length_range]
  have hget : ∀ j, j < n → (toIntShares (Shamir t n k0 p rand resample)).getD j (0, 0)
      = (((j + 1 : ℕ) : ℤ),
         ((f (j + 1) (shamirCoefficients t k0 rand resample) p t : ℕ) : ℤ)) := by
    intro j hj
    rw [hSI]
    exact getD_map_range _ _ n j hj
  -- the x-coordinate casts to the node, and the nodes are pairwise distinct
  have hxcast : ∀ j, ((((j + 1 : ℕ) : ℤ)) : ZMod p) = nodeOf p j := by
    intro j
    rw [nodeOf]
    push_cast
    ring
  have hsub_ne : ∀ i j, i < n → j < n → j ≠ i →
      (((((j + 1 : ℕ) : ℤ) - ((i + 1 : ℕ) : ℤ)) : ℤ) : ZMod p) ≠ 0 := by
    intro i j hi hj hne
    have : ((((j + 1 : ℕ) : ℤ) - ((i + 1 : ℕ) : ℤ) : ℤ) : ZMod p)
        = nodeOf p j - nodeOf p i := by
      rw [nodeOf, nodeOf]
      push_cast
      ring
    rw [this]
    refine sub_ne_zero_of_ne (fun heq => hne ?_)
    exact nodeOf_injOn p n hnp (by simpa using hj) (by simpa using hi) heq
  -- the Lagrange coefficient list
  have hco : computate_coefficients (toIntShares (Shamir t n k0 p rand resample)) (p : Int)
      = (List.range n).map (fun i => (List.range n).foldl (fun li j =>
          if i ≠ j then
            (li * (((toIntShares (Shamir t n k0 p rand resample)).getD j (0, 0)).1 *
              binary_exponentiation
                (((toIntShares (Shamir t n k0 p rand resample)).getD j (0, 0)).1 -
                  ((toIntShares (Shamir t n k0 p rand resample)).getD i (0, 0)).1)
                (-1) (p : Int))) % (p : Int)
          else li) 1) := by
    rw [computate_coefficients, hSIlen]
  have hcoget : ∀ i, i < n →
      (computate_coefficients (toIntShares (Shamir t n k0 p rand resample)) (p : Int)).getD i 0
        = (List.range n).foldl (fun li j =>
            if i ≠ j then
              (li * (((toIntShares (Shamir t n k0 p rand resample)).getD j (0, 0)).1 *
                binary_exponentiation
                  (((toIntShares (Shamir t n k0 p rand resample)).getD j (0, 0)).1 -
                    ((toIntShares (Shamir t n k0 p rand resample)).getD i (0, 0)).1)
                  (-1) (p : Int))) % (p : Int)
            else li) 1 := by
    intro i hi
    rw [hco]
    exact getD_map_range _ _ n i hi
  -- the reconstruction value as a fold
  have hrec : reconstruct_secret (toIntShares (Shamir t n k0 p rand resample))
      (computate_coefficients (toIntShares (Shamir t n k0 p rand resample)) (p : Int))
      (p : Int)
      = (List.range n).foldl (fun secret i =>
          (secret + ((toIntShares (Shamir t n k0 p rand resample)).getD i (0, 0)).2 *
            (computate_coefficients (toIntShares (Shamir t n k0 p rand resample)) (p : Int)).getD i 0)
          % (p : Int)) 0 := by
    rw [reconstruct_secret, hSIlen]
  -- bounds on the reconstruction value
  have hbounds := foldl_add_mod_mem (p : Int) (by exact_mod_cast Nat.lt_of_lt_of_le Nat.zero_lt_two hp2)
    (fun i => ((toIntShares (Shamir t n k0 p rand resample)).getD i (0, 0)).2 *
      (computate_coefficients (toIntShares (Shamir t n k0 p rand resample)) (p : Int)).getD i 0)
    (List.range n) 0 (by simp; omega)
  rw [← hrec] at hbounds
  -- the reconstruction value in `ZMod p`
  have hcast : ((reconstruct_secret (toIntShares (Shamir t n k0 p rand resample))
      (computate_coefficients (toIntShares (Shamir t n k0 p rand resample)) (p : Int))
      (p : Int) : ℤ) : ZMod p) = ((k0 : ℕ) : ZMod p) := by
    rw [hrec, foldl_add_mod_cast, map_range_sum]
    rw [Int.cast_zero, zero_add]
    have hterm : ∀ i ∈ Finset.range n,
        ((((toIntShares (Shamir t n k0 p rand resample)).getD i (0, 0)).2 *
          (computate_coefficients (toIntShares (Shamir t n k0 p rand resample)) (p : Int)).getD i 0 : ℤ) : ZMod p)
        = (∑ d ∈ Finset.range t, ((shamirCoefficients t k0 rand resample).getD d 0 : ZMod p)
            * nodeOf p i ^ d) *
          ∏ j ∈ (Finset.range n).erase i,
            (nodeOf p j * (nodeOf p j - nodeOf p i)⁻¹) := by
      intro i hi
      have hi' : i < n := Finset.mem_range.mp hi
      rw [Int.cast_mul]
      congr 1
      · -- the share value casts to the polynomial evaluation
        rw [hget i hi']
        show (((f (i + 1) (shamirCoefficients t k0 rand resample) p t : ℕ) : ℤ) : ZMod p) = _
        rw [Int.cast_natCast, f, ZMod.natCast_mod, Nat.cast_list_sum, List.map_map,
          map_range_sum]
        exact Finset.sum_congr rfl (fun d _ => by
          show (((shamirCoefficients t k0 rand resample).getD d 0 * (i + 1) ^ d : ℕ) : ZMod p) = _
          rw [Nat.cast_mul, Nat.cast_pow]
          rw [show (((i + 1 : ℕ) : ZMod p)) = nodeOf p i from rfl])
      · -- the Lagrange coefficient casts to the node product
        rw [hcoget i hi', foldl_mul_mod_cast, map_range_prod, Int.cast_one, one_mul,
          prod_ite_ne_erase]
        refine Finset.prod_congr rfl (fun j hj => ?_)
        have hj' : j < n := Finset.mem_range.mp (Finset.mem_of_mem_erase hj)
        have hjne : j ≠ i := (Finset.mem_erase.mp hj).1
        rw [hget i hi', hget j hj']
        show ((((j + 1 : ℕ) : ℤ) * binary_exponentiation
          (((j + 1 : ℕ) : ℤ) - ((i + 1 : ℕ) : ℤ)) (-1) (p : Int) : ℤ) : ZMod p) = _
        rw [Int.cast_mul, binexp_inv_cast p hp _ (hsub_ne i j hi' hj' hjne)]
        rw [hxcast j]
        congr 1
        rw [show ((((j + 1 : ℕ) : ℤ) - ((i + 1 : ℕ) : ℤ) : ℤ) : ZMod p)
          = nodeOf p j - nodeOf p i by rw [nodeOf, nodeOf]; push_cast; ring]
    rw [Finset.sum_congr rfl hterm]
    rw [lagrange_sum_eval_zero p hp n t ht (by omega) hnp
      (fun d => ((shamirCoefficients t k0 rand resample).getD d 0 : ZMod p))]
    rw [shamirCoefficients_getD_zero t k0 rand resample ht hrand hnz]
  -- conclude over the integers
  have hcast' : ((reconstruct_secret (toIntShares (Shamir t n k0 p rand resample))
      (computate_coefficients (toIntShares (Shamir t n k0 p rand resample)) (p : Int))
      (p : Int) : ℤ) : ZMod p) = (((k0 : ℕ) : ℤ) : ZMod p) := by
    rw [hcast, Int.cast_natCast]
  rw [ZMod.intCast_eq_intCast_iff] at hcast'
  have hmod := hcast'
  unfold Int.ModEq at hmod
  rw [Int.emod_eq_of_lt hbounds.1 hbounds.2,
    Int.emod_eq_of_lt (by positivity) (by exact_mod_cast hk0)] at hmod
  exact hmod

/-- C3 (counterexample): for `t = 1`, `n = 3`, `p = 5`, `k0 = 0` the
leading-coefficient resample (here `1`) overwrites the secret itself:
the shares are `[(1,1),(2,1),(3,1)]` and the round trip reconstructs
`1`, not the secret `0`. -/
theorem lagrange_round_trip_fails_for_zero_secret :
    reconstruct_secret (toIntShares (Shamir 1 3 0 5 [0] 1))
      (computate_coefficients (toIntShares (Shamir 1 3 0 5 [0] 1)) 5) 5 = 1 ∧
    (1 : Int) ≠ 0 :=
  ⟨by decide, by decide⟩

/-- Witness for C3's amended theorem: `t = 1`, `n = 3`, `p = 5`,
`k0 = 2`. -/
theorem lagrange_round_trip_witness :
    Nat.Prime 5 ∧
    reconstruct_secret (toIntShares (Shamir 1 3 2 5 [0] 1))
      (computate_coefficients (toIntShares (Shamir 1 3 2 5 [0] 1)) 5) 5 = 2 :=
  ⟨by norm_num, lagrange_round_trip 1 3 5 2 [0] 1 (by norm_num) (by decide) (by decide)
    (by decide) (by decide) (by decide) (by decide)⟩
